import Mathlib

/-!
# Verification of the credit-scoring EDA pipeline

Shallow embedding of the repository's tabular data model, cleaning pipeline,
analysis functions and notebook orchestration, together with theorems settling
the specification's claims about them.

The notebook (`notebooks/eda_notebook.ipynb`) is the orchestrator and is
embedded directly.  The modules it imports (`src.data_preprocessing`,
`src.analysis`, `src.visualizations`) are not part of the source tree, so
their functions are modelled from the specification, as marked in their
doc comments.
-/

namespace CreditEDA

/-- A cell value of a table: a numeric value (rationals standing for the
numeric values of the dataset), a categorical/string value, or the missing
marker (NaN). -/
inductive Value where
  | num (q : ℚ)
  | cat (s : String)
  | missing
deriving DecidableEq, Repr

/-- `true` on numeric values. -/
def Value.isNum : Value → Bool
  | .num _ => true
  | _ => false

/-- `true` on categorical values. -/
def Value.isCat : Value → Bool
  | .cat _ => true
  | _ => false

/-- `true` on the missing marker. -/
def Value.isMissing : Value → Bool
  | .missing => true
  | _ => false

/-- Numeric content of a value; non-numeric values read as `0`. -/
def Value.toQ : Value → ℚ
  | .num q => q
  | _ => 0

/-- A named column: a name and the sequence of its values. -/
structure Column where
  name : String
  vals : List Value
deriving DecidableEq, Repr

/-- A table: an ordered collection of named columns. -/
structure Table where
  cols : List Column
deriving DecidableEq, Repr

/-- Names of the table's columns, in order (the pandas `df.columns`). -/
def Table.names (T : Table) : List String :=
  T.cols.map Column.name

/-- First column with the given name, if any. -/
def Table.findCol (T : Table) (name : String) : Option Column :=
  T.cols.find? (fun c => c.name = name)

/-- Number of rows: the length of the first column (0 for a table without
columns).  Meaningful on well-formed tables, where all columns agree. -/
def Table.nrows (T : Table) : ℕ :=
  match T.cols with
  | [] => 0
  | c :: _ => c.vals.length

/-- The table invariant: all columns have equal length. -/
def Table.wellFormed (T : Table) : Prop :=
  ∀ c ∈ T.cols, c.vals.length = T.nrows

instance (T : Table) : Decidable T.wellFormed := by
  unfold Table.wellFormed; infer_instance

/-- Number of missing values in a column. -/
def Column.missingCount (c : Column) : ℕ :=
  (c.vals.filter Value.isMissing).length

/-- A column counts as numeric when it is nonempty, has at least one numeric
value and no categorical value (pandas: a float/int dtype column, possibly
with NaNs before cleaning). -/
def Column.isNumeric (c : Column) : Bool :=
  c.vals.any Value.isNum && c.vals.all (fun v => v.isNum || v.isMissing)

/-- The numeric values present in a column, missing entries skipped. -/
def Column.numVals (c : Column) : List ℚ :=
  c.vals.filterMap (fun v => match v with | .num q => some q | _ => none)

/-! ## Cleaner

Modelled from the spec: the implementation lives in `src/data_preprocessing.py`,
which is absent from the source tree.  §4.2 fixes the contract: missing
numeric values imputed (the spec's worked example in §8 uses the median),
missing categorical values imputed with a placeholder category, categorical
columns ordinally encoded, outliers in numeric columns detected by the IQR
rule and removed, a column entirely missing dropped with a warning, an empty
table passed through. -/

/-- The values of a list in ascending order. -/
def sortQ (xs : List ℚ) : List ℚ :=
  List.insertionSort (· ≤ ·) xs

/-- Median of a list of rationals: middle element of the sorted list, or the
mean of the two middle elements for even length; `0` for the empty list. -/
def medianQ (xs : List ℚ) : ℚ :=
  let s := sortQ xs
  let n := s.length
  if n = 0 then 0
  else if n % 2 = 1 then s.getD (n / 2) 0
  else (s.getD (n / 2 - 1) 0 + s.getD (n / 2) 0) / 2

/-- Modelled from the spec (§4.2, edge cases): a column entirely missing is
dropped; the second component lists the warnings emitted, one per dropped
column.  A zero-length column is not "entirely missing" and is kept. -/
def dropAllMissing (T : Table) : Table × List String :=
  (⟨T.cols.filter (fun c => !(!c.vals.isEmpty && c.vals.all Value.isMissing))⟩,
   (T.cols.filter (fun c => !c.vals.isEmpty && c.vals.all Value.isMissing)).map
     (fun c => "Warning: column " ++ c.name ++ " is entirely missing and was dropped"))

/-- Modelled from the spec (§4.2): impute a single column.  Missing values in
a numeric column become the median of the present numeric values; missing
values in any other column become the placeholder category `"Unknown"`. -/
def imputeCol (c : Column) : Column :=
  if c.isNumeric then
    let m := medianQ c.numVals
    ⟨c.name, c.vals.map (fun v => if v.isMissing then .num m else v)⟩
  else
    ⟨c.name, c.vals.map (fun v => if v.isMissing then .cat "Unknown" else v)⟩

/-- Modelled from the spec (§4.2): impute every column of the table. -/
def impute (T : Table) : Table :=
  ⟨T.cols.map imputeCol⟩

/-- Lower quartile of a list: element at sorted index `⌊n/4⌋`. -/
def q1Of (xs : List ℚ) : ℚ :=
  (sortQ xs).getD (xs.length / 4) 0

/-- Upper quartile of a list: element at sorted index `⌊3n/4⌋`. -/
def q3Of (xs : List ℚ) : ℚ :=
  (sortQ xs).getD (3 * xs.length / 4) 0

/-- Whether row `i` survives IQR-based outlier removal: every numeric column's
value at `i` must lie within `[Q1 - 1.5·IQR, Q3 + 1.5·IQR]` of that column. -/
def keepRow (T : Table) (i : ℕ) : Bool :=
  T.cols.all (fun c =>
    if c.isNumeric then
      match c.vals.getD i Value.missing with
      | .num q =>
          let lo := q1Of c.numVals - 3/2 * (q3Of c.numVals - q1Of c.numVals)
          let hi := q3Of c.numVals + 3/2 * (q3Of c.numVals - q1Of c.numVals)
          decide (lo ≤ q) && decide (q ≤ hi)
      | _ => true
    else true)

/-- Row indices kept by outlier removal. -/
def keptIndices (T : Table) : List ℕ :=
  (List.range T.nrows).filter (keepRow T)

/-- Modelled from the spec (§4.2): remove every row in which some numeric
column holds an IQR outlier.  Rows are selected by index, so row order is
preserved and rows are only ever deleted. -/
def removeOutliers (T : Table) : Table :=
  ⟨T.cols.map (fun c => ⟨c.name, (keptIndices T).filterMap (fun i => c.vals.get? i)⟩)⟩

/-- Ordinal code of a value within a column: its index in the deduplicated
value list. -/
def ordCode (vals : List Value) (v : Value) : ℚ :=
  ((vals.dedup).indexOf v : ℕ)

/-- Modelled from the spec (§4.2): ordinal-encode every column that carries a
categorical value, mapping each value to its ordinal code; purely numeric
columns are left unchanged. -/
def encode (T : Table) : Table :=
  ⟨T.cols.map (fun c =>
    if c.vals.any Value.isCat then ⟨c.name, c.vals.map (fun v => .num (ordCode c.vals v))⟩
    else c)⟩

/-- Modelled from the spec (§4.2): the cleaning pipeline together with its
warnings — drop entirely-missing columns, impute the rest, remove IQR
outlier rows, ordinally encode categorical columns. -/
def cleanWithWarnings (T : Table) : Table × List String :=
  (encode (removeOutliers (impute (dropAllMissing T).1)), (dropAllMissing T).2)

/-- Modelled from the spec (§4.2): `clean_data`, the table produced by the
cleaning pipeline. -/
def clean_data (T : Table) : Table :=
  (cleanWithWarnings T).1

/-! ## Summarizer

Modelled from the spec (§4.3): implementation absent from the source tree. -/

/-- Descriptive statistics of a numeric column (§4.3(a); dispersion is
recorded as the variance, the square of the standard deviation, to keep the
statistics rational). -/
structure NumStats where
  count : ℕ
  mean : ℚ
  variance : ℚ
  min : ℚ
  max : ℚ
  q1 : ℚ
  median : ℚ
  q3 : ℚ
deriving DecidableEq, Repr

/-- Descriptive statistics of a list of rationals. -/
def numStatsOf (xs : List ℚ) : NumStats :=
  let n := xs.length
  let m := xs.sum / n
  { count := n
    mean := m
    variance := (xs.map (fun x => (x - m) ^ 2)).sum / n
    min := xs.foldr min (xs.headD 0)
    max := xs.foldr max (xs.headD 0)
    q1 := q1Of xs
    median := medianQ xs
    q3 := q3Of xs }

/-- Modelled from the spec (§4.3): per-column inferred type. -/
def inferredType (c : Column) : String :=
  if c.isNumeric then "numeric" else "categorical"

/-- The result of `summarize_data`: descriptive statistics for each numeric
column, the count of missing values per column, and the inferred type per
column (the notebook's `summary['numerical']`, `summary['missing']`,
`summary['data_types']`). -/
structure Summary where
  numerical : List (String × NumStats)
  missing : List (String × ℕ)
  data_types : List (String × String)
deriving DecidableEq, Repr

/-- Modelled from the spec (§4.3): `summarize_data`, computed over the table
it is given, without modifying it. -/
def summarize_data (T : Table) : Summary :=
  { numerical := (T.cols.filter Column.isNumeric).map (fun c => (c.name, numStatsOf c.numVals))
    missing := T.cols.map (fun c => (c.name, c.missingCount))
    data_types := T.cols.map (fun c => (c.name, inferredType c)) }

/-! ## Chi-square independence test

Modelled from the spec (§4.4): implementation absent from the source tree. -/

/-- The distinct categories of a column: its deduplicated non-missing
values. -/
def distinctCats (c : Column) : List Value :=
  (c.vals.filter (fun v => !v.isMissing)).dedup

/-- Chi-square test outcome: the statistic and the degrees of freedom.  (The
p-value is obtained from the chi-square distribution's tail at the statistic
and degrees of freedom; being a transcendental function of these two fields
it is not modelled algebraically.) -/
structure Chi2Result where
  statistic : ℚ
  dof : ℕ
deriving DecidableEq, Repr

/-- Number of rows where column `c` holds `a` and column `t` holds `b`: one
cell of the contingency table. -/
def cellCount (c t : Column) (a b : Value) : ℕ :=
  ((List.range (min c.vals.length t.vals.length)).filter
    (fun i => c.vals.getD i Value.missing = a && t.vals.getD i Value.missing = b)).length

/-- Modelled from the spec (§4.4): `chi_square_test` builds the contingency
table between the two columns' categories and computes the chi-square
statistic `Σ (obs − exp)²/exp` and degrees of freedom `(r−1)(k−1)`; it fails
if either column has fewer than 2 distinct categories. -/
def chi_square_test (T : Table) (colName target : String) : Except String Chi2Result :=
  match T.findCol colName, T.findCol target with
  | some c, some t =>
      let cats₁ := distinctCats c
      let cats₂ := distinctCats t
      if cats₁.length < 2 ∨ cats₂.length < 2 then
        .error ("Chi-square test undefined for " ++ colName ++ " vs " ++ target ++
          ": fewer than 2 distinct categories")
      else
        let n : ℚ := (min c.vals.length t.vals.length : ℕ)
        let rowTot := fun a => ((cats₂.map (cellCount c t a)).sum : ℚ)
        let colTot := fun b => ((cats₁.map (fun a => cellCount c t a b)).sum : ℚ)
        .ok
          { statistic :=
              (cats₁.map (fun a =>
                (cats₂.map (fun b =>
                  let exp := rowTot a * colTot b / n
                  ((cellCount c t a b : ℚ) - exp) ^ 2 / exp)).sum)).sum
            dof := (cats₁.length - 1) * (cats₂.length - 1) }
  | _, _ => .error ("Chi-square test: column " ++ colName ++ " or " ++ target ++ " not found")

/-! ## Correlation analyzer

Modelled from the spec (§4.4): implementation absent from the source tree.
The Pearson coefficient of a column against the target is `cov/(√varx·√vary)`
over the paired rows; entries carry the rational sufficient statistics
`(cov, varx, vary)` and the original column position, and the real-valued
coefficient is their interpretation `coefOf`. -/

/-- Mean of the first `n` entries of `xs` (0 when `n = 0`). -/
def meanOn (n : ℕ) (xs : List ℚ) : ℚ :=
  (∑ i ∈ Finset.range n, xs.getD i 0) / n

/-- Deviation of entry `i` from the mean over the first `n` entries. -/
def devOn (n : ℕ) (xs : List ℚ) (i : ℕ) : ℚ :=
  xs.getD i 0 - meanOn n xs

/-- Unnormalised covariance of two lists over their first `n` entries. -/
def covOn (n : ℕ) (xs ys : List ℚ) : ℚ :=
  ∑ i ∈ Finset.range n, devOn n xs i * devOn n ys i

/-- Unnormalised variance of a list over its first `n` entries. -/
def varOn (n : ℕ) (xs : List ℚ) : ℚ :=
  ∑ i ∈ Finset.range n, devOn n xs i ^ 2

/-- One entry of the correlation mapping: the original column position, the
column name, and the sufficient statistics of the coefficient. -/
structure CorrEntry where
  idx : ℕ
  name : String
  cov : ℚ
  varx : ℚ
  vary : ℚ
deriving DecidableEq, Repr

/-- The correlation entries of every numeric non-target column against the
target column, in original column order. -/
def corrEntries (T : Table) (target : String) : List CorrEntry :=
  match T.findCol target with
  | none => []
  | some tc =>
      (T.cols.enum.filter (fun p => p.2.isNumeric && p.2.name != target)).map
        (fun p =>
          ⟨p.1, p.2.name,
            covOn (min (p.2.vals.map Value.toQ).length (tc.vals.map Value.toQ).length)
              (p.2.vals.map Value.toQ) (tc.vals.map Value.toQ),
            varOn (min (p.2.vals.map Value.toQ).length (tc.vals.map Value.toQ).length)
              (p.2.vals.map Value.toQ),
            varOn (min (p.2.vals.map Value.toQ).length (tc.vals.map Value.toQ).length)
              (tc.vals.map Value.toQ)⟩)

/-- Rational sort key of an entry: the square of its coefficient scaled by
the (shared) target variance, `cov²/varx`. -/
def corrKey (e : CorrEntry) : ℚ :=
  e.cov ^ 2 / e.varx

/-- Sort order of the correlation mapping: strictly larger key first, ties
broken by original column position. -/
def corrRel (a b : CorrEntry) : Prop :=
  corrKey b < corrKey a ∨ (corrKey a = corrKey b ∧ a.idx ≤ b.idx)

instance : DecidableRel corrRel := fun a b => by
  unfold corrRel; infer_instance

instance : IsTotal CorrEntry corrRel where
  total a b := by
    unfold corrRel
    rcases lt_trichotomy (corrKey a) (corrKey b) with h | h | h
    · exact Or.inr (Or.inl h)
    · rcases Nat.le_total a.idx b.idx with hi | hi
      · exact Or.inl (Or.inr ⟨h, hi⟩)
      · exact Or.inr (Or.inr ⟨h.symm, hi⟩)
    · exact Or.inl (Or.inl h)

instance : IsTrans CorrEntry corrRel where
  trans a b c hab hbc := by
    unfold corrRel at hab hbc ⊢
    rcases hab with h₁ | ⟨h₁, hi₁⟩ <;> rcases hbc with h₂ | ⟨h₂, hi₂⟩
    · exact Or.inl (h₂.trans h₁)
    · exact Or.inl (h₂ ▸ h₁)
    · exact Or.inl (h₁.symm ▸ h₂)
    · exact Or.inr ⟨h₁.trans h₂, hi₁.trans hi₂⟩

/-- The real-valued Pearson coefficient an entry stands for. -/
noncomputable def coefOf (e : CorrEntry) : ℝ :=
  (e.cov : ℝ) / (Real.sqrt e.varx * Real.sqrt e.vary)

/-- The order "larger absolute coefficient first, ties broken by original
column position" on correlation entries, stated on the real coefficients. -/
def coefRel (a b : CorrEntry) : Prop :=
  |coefOf b| < |coefOf a| ∨ (|coefOf a| = |coefOf b| ∧ a.idx ≤ b.idx)

/-- The invariant every correlation entry enjoys: nonnegative variances and
the Cauchy–Schwarz bound. -/
def CorrEntry.valid (e : CorrEntry) : Prop :=
  0 ≤ e.varx ∧ 0 ≤ e.vary ∧ e.cov ^ 2 ≤ e.varx * e.vary

/-- Modelled from the spec (§4.4): `correlation_analysis` fails with a
descriptive error when the target column is absent, and otherwise returns
the mapping from numeric column name to correlation entry, sorted by
absolute coefficient descending, ties broken by original column order. -/
def correlation_analysis (T : Table) (target : String) : Except String (List CorrEntry) :=
  match T.findCol target with
  | none => .error ("Target column " ++ target ++ " not found in table")
  | some _ => .ok (List.insertionSort corrRel (corrEntries T target))

/-! ## Loader

Modelled from the spec (§4.1): implementation absent from the source tree.
The file system is modelled as an association list from paths to the list of
lines of the file stored there. -/

/-- Parse one delimited field: empty field is missing, an integer literal is
numeric, anything else categorical (type inference from contents). -/
def parseValue (s : String) : Value :=
  if s = "" then .missing
  else
    match s.toInt? with
    | some k => .num (k : ℚ)
    | none => .cat s

/-- Parse a delimited file: the first line is the header naming the columns,
each further line one row. -/
def parseTable (lines : List String) : Table :=
  match lines with
  | [] => ⟨[]⟩
  | header :: rows =>
      ⟨(header.splitOn ",").enum.map (fun p =>
        ⟨p.2, rows.map (fun r => parseValue ((r.splitOn ",").getD p.1 ""))⟩)⟩

/-- Modelled from the spec (§4.1): `load_data` fails with a
`FileNotFoundError`-kind error when the path does not exist in the file
system, and otherwise parses the stored file with no further
transformation. -/
def load_data (fs : List (String × List String)) (path : String) : Except String Table :=
  match fs.lookup path with
  | none => .error ("FileNotFoundError: no such file: " ++ path)
  | some lines => .ok (parseTable lines)

/-! ## Orchestrator

Embedding of the notebook `notebooks/eda_notebook.ipynb`: each cell becomes a
block of the event trace `orchestrate` emits for a loaded table.  Calls into
the collaborators appear as events carrying exactly the arguments the
notebook passes. -/

/-- One observable step of the notebook run. -/
inductive Event where
  | loadEv (t : Table)
  | previewEv (t : Table)
  | cleanEv
  | saveEv (t : Table) (path : String)
  | summarizeEv (t : Table)
  | plotDistEv (t : Table) (col : String)
  | corrEv (t : Table) (target : String)
  | heatmapEv (t : Table)
  | plotCatEv (t : Table) (col target : String)
  | chi2Ev (t : Table) (col target : String)
  | noticeEv (msg : String)
deriving DecidableEq, Repr

/-- `numerical_cols` of the univariate-analysis cell. -/
def numericalCols : List String := ["loan_amnt", "int_rate"]

/-- `categorical_cols` of the bivariate-analysis cell. -/
def categoricalCols : List String := ["grade"]

/-- `target` of the bivariate-analysis cell. -/
def targetName : String := "default"

/-- `sensitive_col` of the fairness cell. -/
def sensitiveName : String := "age"

/-- Destination of `save_cleaned_data`. -/
def processedPath : String := "../data/processed/credit_data_cleaned.csv"

/-- Univariate cell: one distribution plot per numerical column present, a
printed notice per absent one. -/
def distSection (dfc : Table) : List Event :=
  numericalCols.flatMap fun c =>
    if c ∈ dfc.names then [.plotDistEv dfc c]
    else [.noticeEv ("Column " ++ c ++ " not found in dataset.")]

/-- Correlation cell: correlation analysis and heatmap when the target is
present, a printed notice otherwise. -/
def corrSection (dfc : Table) : List Event :=
  if targetName ∈ dfc.names then [.corrEv dfc targetName, .heatmapEv dfc]
  else [.noticeEv ("Target column " ++ targetName ++ " not found in dataset.")]

/-- Bivariate cell: per categorical column present, a default-rate plot and a
chi-square test against the target; the guard checks only the categorical
column. -/
def catSection (dfc : Table) : List Event :=
  categoricalCols.flatMap fun c =>
    if c ∈ dfc.names then [.plotCatEv dfc c targetName, .chi2Ev dfc c targetName]
    else [.noticeEv ("Column " ++ c ++ " not found in dataset.")]

/-- Fairness cell: default-rate plot and chi-square test for the sensitive
column; the guard checks only the sensitive column. -/
def fairSection (dfc : Table) : List Event :=
  if sensitiveName ∈ dfc.names then
    [.plotCatEv dfc sensitiveName targetName, .chi2Ev dfc sensitiveName targetName]
  else [.noticeEv ("Sensitive column " ++ sensitiveName ++ " not found in dataset.")]

/-- The notebook run on a loaded table `df`: load, preview, clean, save the
cleaned table, then the analysis cells in notebook order. -/
def orchestrate (df : Table) : List Event :=
  let dfc := clean_data df
  [.loadEv df, .previewEv df, .cleanEv, .saveEv dfc processedPath, .summarizeEv dfc] ++
    distSection dfc ++ corrSection dfc ++ catSection dfc ++ fairSection dfc

/-- Whether an event is one of the analysis/visualizer calls. -/
def Event.isAnalysis : Event → Bool
  | .summarizeEv _ | .plotDistEv _ _ | .corrEv _ _ | .heatmapEv _
  | .plotCatEv _ _ _ | .chi2Ev _ _ _ => true
  | _ => false

/-- The table an event passes to its callee (`none` for events that pass no
table onward: the load, preview, clean marker and notices). -/
def Event.tableOf : Event → Option Table
  | .saveEv t _ => some t
  | .summarizeEv t => some t
  | .plotDistEv t _ => some t
  | .corrEv t _ => some t
  | .heatmapEv t => some t
  | .plotCatEv t _ _ => some t
  | .chi2Ev t _ _ => some t
  | _ => none

/-- State-transformer reading of `summarize_data`, modelled from the spec
(§3 lifecycle, §4.3): the call returns its derived result and leaves the
table it received behind unchanged. -/
def summarize_data_st (T : Table) : Summary × Table :=
  (summarize_data T, T)

/-- State-transformer reading of `correlation_analysis`, modelled from the
spec (§3 lifecycle, §4.4). -/
def correlation_analysis_st (T : Table) (target : String) :
    Except String (List CorrEntry) × Table :=
  (correlation_analysis T target, T)

/-- State-transformer reading of `chi_square_test`, modelled from the spec
(§3 lifecycle, §4.4). -/
def chi_square_test_st (T : Table) (colName target : String) :
    Except String Chi2Result × Table :=
  (chi_square_test T colName target, T)

/-- No value anywhere in the table is the missing marker. -/
def Table.noMissing (T : Table) : Prop :=
  ∀ c ∈ T.cols, ∀ v ∈ c.vals, v ≠ Value.missing

instance (T : Table) : Decidable T.noMissing := by
  unfold Table.noMissing; infer_instance

/-- No value anywhere in the table is categorical. -/
def Table.noCat (T : Table) : Prop :=
  ∀ c ∈ T.cols, ∀ v ∈ c.vals, v.isCat = false

/-- Whether an `Except` result is an error. -/
def isErr {ε α : Type} : Except ε α → Bool
  | .error _ => true
  | .ok _ => false

/-! ## Concrete tables and file systems used to instantiate the theorems -/

/-- The spec's worked example (§8): a numeric column with one missing value,
a categorical grade column and the binary target. -/
def sampleTable : Table :=
  ⟨[⟨"loan_amnt", [.num 1000, .missing, .num 5000]⟩,
    ⟨"grade", [.cat "A", .cat "B", .cat "A"]⟩,
    ⟨"default", [.num 0, .num 1, .num 0]⟩]⟩

/-- A table whose cleaned form has a `grade` column but no `default`
column. -/
def gradeOnlyTable : Table :=
  ⟨[⟨"grade", [.cat "A", .cat "B"]⟩]⟩

/-- A single numeric column on which IQR outlier removal is not idempotent:
the first pass removes `30`, which drops the upper quartile to `0`, and the
second pass then removes `4`. -/
def nonIdemTable : Table :=
  ⟨[⟨"x", [.num 0, .num 0, .num 0, .num 0, .num 0, .num 0, .num 4, .num 30]⟩]⟩

/-- A table with an entirely-missing column. -/
def allMissingTable : Table :=
  ⟨[⟨"m", [.missing, .missing]⟩, ⟨"x", [.num 1, .num 2]⟩]⟩

/-- A table whose `grade` column is degenerate (a single category) while
`age` and the target are present. -/
def degenerateTable : Table :=
  ⟨[⟨"grade", [.cat "A", .cat "A"]⟩, ⟨"age", [.num 1, .num 2]⟩,
    ⟨"default", [.num 0, .num 1]⟩]⟩

/-- A small well-formed numeric table with the target column. -/
def corrTable : Table :=
  ⟨[⟨"loan_amnt", [.num 1, .num 2, .num 3]⟩, ⟨"default", [.num 0, .num 1, .num 0]⟩]⟩

/-- A one-column table driving the orchestrator in witnesses. -/
def tinyTable : Table :=
  ⟨[⟨"x", [.num 1]⟩]⟩

/-- A one-file file system. -/
def sampleFS : List (String × List String) :=
  [("data.csv", ["a,b", "1,", "2,x"])]

/-! ### Lemmas about the loader -/

lemma parseTable_names (header : String) (rows : List String) :
    (parseTable (header :: rows)).names = header.splitOn "," := by
  show ((header.splitOn ",").enum.map _).map Column.name = header.splitOn ","
  rw [List.map_map]
  exact List.enum_map_snd _

lemma parseTable_col_length (header : String) (rows : List String) :
    ∀ c ∈ (parseTable (header :: rows)).cols, c.vals.length = rows.length := by
  intro c hc
  simp only [parseTable, List.mem_map] at hc
  obtain ⟨p, -, rfl⟩ := hc
  simp

/-! ### Lemmas about the correlation analyzer -/

lemma varOn_nonneg (n : ℕ) (xs : List ℚ) : 0 ≤ varOn n xs :=
  Finset.sum_nonneg fun _ _ => sq_nonneg _

lemma covOn_sq_le (n : ℕ) (xs ys : List ℚ) :
    covOn n xs ys ^ 2 ≤ varOn n xs * varOn n ys := by
  unfold covOn varOn
  exact Finset.sum_mul_sq_le_sq_mul_sq (Finset.range n) (devOn n xs) (devOn n ys)

lemma corrEntries_valid (T : Table) (target : String) :
    ∀ e ∈ corrEntries T target, e.valid := by
  intro e he
  unfold corrEntries at he
  split at he
  · exact absurd he (List.not_mem_nil e)
  · simp only [List.mem_map] at he
    obtain ⟨p, -, rfl⟩ := he
    exact ⟨varOn_nonneg _ _, varOn_nonneg _ _, covOn_sq_le _ _ _⟩

lemma cov_eq_zero_of_valid_varx {e : CorrEntry} (hv : e.valid) (hx : e.varx = 0) :
    e.cov = 0 := by
  have h2 : e.cov ^ 2 ≤ 0 := by
    have := hv.2.2
    rw [hx, zero_mul] at this
    exact this
  exact pow_eq_zero_iff (n := 2) (by norm_num) |>.mp (le_antisymm h2 (sq_nonneg _))

lemma cov_eq_zero_of_valid_vary {e : CorrEntry} (hv : e.valid) (hy : e.vary = 0) :
    e.cov = 0 := by
  have h2 : e.cov ^ 2 ≤ 0 := by
    have := hv.2.2
    rw [hy, mul_zero] at this
    exact this
  exact pow_eq_zero_iff (n := 2) (by norm_num) |>.mp (le_antisymm h2 (sq_nonneg _))

lemma abs_coefOf_le_one (e : CorrEntry) (hv : e.valid) : |coefOf e| ≤ 1 := by
  obtain ⟨hx, hy, hcs⟩ := hv
  have hx' : (0:ℝ) ≤ (e.varx : ℝ) := by exact_mod_cast hx
  have hcs' : ((e.cov : ℝ)) ^ 2 ≤ (e.varx : ℝ) * (e.vary : ℝ) := by exact_mod_cast hcs
  have habs : |(e.cov : ℝ)| ≤ Real.sqrt e.varx * Real.sqrt e.vary := by
    rw [← Real.sqrt_sq_eq_abs, ← Real.sqrt_mul hx']
    exact Real.sqrt_le_sqrt hcs'
  have hd : (0:ℝ) ≤ Real.sqrt e.varx * Real.sqrt e.vary :=
    mul_nonneg (Real.sqrt_nonneg _) (Real.sqrt_nonneg _)
  calc |coefOf e| = |(e.cov : ℝ)| / (Real.sqrt e.varx * Real.sqrt e.vary) := by
        rw [coefOf, abs_div, abs_of_nonneg hd]
    _ ≤ 1 := div_le_one_of_le₀ habs hd

lemma abs_coefOf_eq (e : CorrEntry) (hv : e.valid) :
    |coefOf e| = Real.sqrt ((corrKey e : ℝ) / (e.vary : ℝ)) := by
  obtain ⟨hx, hy, hcs⟩ := hv
  rcases eq_or_lt_of_le hx with hx0 | hxpos
  · have hcov : e.cov = 0 := cov_eq_zero_of_valid_varx ⟨hx, hy, hcs⟩ hx0.symm
    have hkey : corrKey e = 0 := by rw [corrKey, hcov]; norm_num
    rw [coefOf, hcov, hkey]
    simp
  rcases eq_or_lt_of_le hy with hy0 | hypos
  · have hcov : e.cov = 0 := cov_eq_zero_of_valid_vary ⟨hx, hy, hcs⟩ hy0.symm
    rw [coefOf, hcov, ← hy0]
    simp
  · have hx' : (0:ℝ) < (e.varx : ℝ) := by exact_mod_cast hxpos
    have hkey : ((corrKey e : ℚ) : ℝ) = ((e.cov : ℝ)) ^ 2 / (e.varx : ℝ) := by
      rw [corrKey]; push_cast; ring
    rw [hkey, div_div, Real.sqrt_div (sq_nonneg _), Real.sqrt_sq_eq_abs,
      Real.sqrt_mul hx'.le, coefOf, abs_div,
      abs_of_nonneg (mul_nonneg (Real.sqrt_nonneg _) (Real.sqrt_nonneg _))]

lemma corrKey_nonneg (e : CorrEntry) (hx : 0 ≤ e.varx) : 0 ≤ corrKey e :=
  div_nonneg (sq_nonneg _) hx

lemma key_lt_coef {a b : CorrEntry} (ha : a.valid) (hb : b.valid)
    (hvy : a.vary = b.vary) (h : corrKey b < corrKey a) :
    |coefOf b| < |coefOf a| := by
  rcases eq_or_lt_of_le hb.2.1 with hy0 | hypos
  · have hcb : b.cov = 0 := cov_eq_zero_of_valid_vary hb hy0.symm
    have hca : a.cov = 0 := cov_eq_zero_of_valid_vary ha (hvy.trans hy0.symm)
    rw [corrKey, corrKey, hca, hcb] at h
    norm_num at h
  · have hy' : (0:ℝ) < (b.vary : ℝ) := by exact_mod_cast hypos
    rw [abs_coefOf_eq a ha, abs_coefOf_eq b hb, hvy]
    apply Real.sqrt_lt_sqrt
    · exact div_nonneg (by exact_mod_cast corrKey_nonneg b hb.1) hy'.le
    · exact (div_lt_div_iff_of_pos_right hy').mpr (by exact_mod_cast h)

lemma key_eq_coef {a b : CorrEntry} (ha : a.valid) (hb : b.valid)
    (hvy : a.vary = b.vary) (h : corrKey a = corrKey b) :
    |coefOf a| = |coefOf b| := by
  rw [abs_coefOf_eq a ha, abs_coefOf_eq b hb, hvy, h]

lemma findCol_eq_none_iff (T : Table) (target : String) :
    T.findCol target = none ↔ target ∉ T.names := by
  unfold Table.findCol Table.names
  rw [List.find?_eq_none]
  simp

lemma corrEntries_vary_const (T : Table) (target : String) (hw : T.wellFormed)
    {tc : Column} (htc : T.findCol target = some tc) :
    ∀ e ∈ corrEntries T target, e.vary = varOn T.nrows (tc.vals.map Value.toQ) := by
  intro e he
  unfold corrEntries at he
  rw [htc] at he
  simp only [List.mem_map, List.mem_filter] at he
  obtain ⟨p, ⟨hpe, -⟩, rfl⟩ := he
  have hp2 : p.2 ∈ T.cols := by
    have := List.mem_map_of_mem Prod.snd hpe
    rwa [List.enum_map_snd] at this
  have hlen1 : (p.2.vals.map Value.toQ).length = T.nrows := by
    rw [List.length_map]; exact hw p.2 hp2
  have htc_mem : tc ∈ T.cols := List.mem_of_find?_eq_some htc
  have hlen2 : (tc.vals.map Value.toQ).length = T.nrows := by
    rw [List.length_map]; exact hw tc htc_mem
  show varOn (min (p.2.vals.map Value.toQ).length (tc.vals.map Value.toQ).length)
      (tc.vals.map Value.toQ) = _
  rw [hlen1, hlen2, min_self]

lemma corrEntries_name_sound (T : Table) (target : String) :
    ∀ e ∈ corrEntries T target,
      ∃ c ∈ T.cols, c.isNumeric = true ∧ c.name ≠ target ∧ c.name = e.name := by
  intro e he
  unfold corrEntries at he
  split at he
  · exact absurd he (List.not_mem_nil e)
  · simp only [List.mem_map, List.mem_filter] at he
    obtain ⟨p, ⟨hpe, hpred⟩, rfl⟩ := he
    have hp2 : p.2 ∈ T.cols := by
      have := List.mem_map_of_mem Prod.snd hpe
      rwa [List.enum_map_snd] at this
    simp only [Bool.and_eq_true, bne_iff_ne, ne_eq] at hpred
    exact ⟨p.2, hp2, hpred.1, hpred.2, rfl⟩

lemma name_mem_corrEntries (T : Table) (target : String) {tc : Column}
    (htc : T.findCol target = some tc) {c : Column} (hc : c ∈ T.cols)
    (hnum : c.isNumeric = true) (hne : c.name ≠ target) :
    c.name ∈ (corrEntries T target).map CorrEntry.name := by
  obtain ⟨i, hi⟩ := List.mem_iff_getElem?.mp hc
  have hienum : (i, c) ∈ T.cols.enum := by
    rw [List.mk_mem_enum_iff_getElem?, hi]
  have hfilter : (i, c) ∈
      T.cols.enum.filter (fun p => p.2.isNumeric && p.2.name != target) :=
    List.mem_filter.mpr ⟨hienum, by simp [hnum, hne]⟩
  unfold corrEntries
  rw [htc]
  exact List.mem_map.mpr ⟨_, List.mem_map_of_mem _ hfilter, rfl⟩

lemma sorted_insertionSort_coefRel (T : Table) (target : String)
    (hw : T.wellFormed) {tc : Column} (htc : T.findCol target = some tc) :
    (List.insertionSort corrRel (corrEntries T target)).Sorted coefRel := by
  have hs : (List.insertionSort corrRel (corrEntries T target)).Sorted corrRel :=
    List.sorted_insertionSort corrRel _
  have hperm := List.perm_insertionSort corrRel (corrEntries T target)
  refine List.Pairwise.imp_of_mem ?_ hs
  intro a b ha hb hr
  have ha' : a ∈ corrEntries T target := hperm.mem_iff.mp ha
  have hb' : b ∈ corrEntries T target := hperm.mem_iff.mp hb
  have hva := corrEntries_valid T target a ha'
  have hvb := corrEntries_valid T target b hb'
  have hvy : a.vary = b.vary := by
    rw [corrEntries_vary_const T target hw htc a ha',
      corrEntries_vary_const T target hw htc b hb']
  rcases hr with h | ⟨h, hidx⟩
  · exact Or.inl (key_lt_coef hva hvb hvy h)
  · exact Or.inr ⟨key_eq_coef hva hvb hvy h, hidx⟩

/-! ### Lemmas about the summarizer and the chi-square test -/

lemma not_isMissing_of_ne {v : Value} (h : v ≠ Value.missing) : v.isMissing = false := by
  cases v <;> simp_all [Value.isMissing]

lemma missingCount_eq_zero {c : Column} (h : ∀ v ∈ c.vals, v ≠ Value.missing) :
    c.missingCount = 0 := by
  unfold Column.missingCount
  rw [List.length_eq_zero, List.filter_eq_nil_iff]
  intro v hv
  simp [not_isMissing_of_ne (h v hv)]

lemma summarize_missing_zero (T : Table) (h : T.noMissing) :
    ∀ p ∈ (summarize_data T).missing, p.2 = 0 := by
  intro p hp
  simp only [summarize_data, List.mem_map] at hp
  obtain ⟨c, hc, rfl⟩ := hp
  exact missingCount_eq_zero (h c hc)

lemma chi_square_test_degenerate {T : Table} {cn tn : String} {c t : Column}
    (hc : T.findCol cn = some c) (ht : T.findCol tn = some t)
    (hdeg : (distinctCats c).length < 2 ∨ (distinctCats t).length < 2) :
    chi_square_test T cn tn =
      .error ("Chi-square test undefined for " ++ cn ++ " vs " ++ tn ++
        ": fewer than 2 distinct categories") := by
  unfold chi_square_test
  rw [hc, ht]
  exact if_pos hdeg

/-! ### Lemmas about the orchestrator trace -/

lemma mem_orchestrate {df : Table} {e : Event} (he : e ∈ orchestrate df) :
    e = .loadEv df ∨ e = .previewEv df ∨ e = .cleanEv ∨
    e = .saveEv (clean_data df) processedPath ∨ e = .summarizeEv (clean_data df) ∨
    e ∈ distSection (clean_data df) ∨ e ∈ corrSection (clean_data df) ∨
    e ∈ catSection (clean_data df) ∨ e ∈ fairSection (clean_data df) := by
  simp only [orchestrate, List.append_assoc, List.cons_append, List.nil_append,
    List.mem_cons, List.mem_append] at he
  tauto

lemma mem_distSection {dfc : Table} {e : Event} (he : e ∈ distSection dfc) :
    (∃ c, c ∈ numericalCols ∧ c ∈ dfc.names ∧ e = .plotDistEv dfc c) ∨
    ∃ m, e = .noticeEv m := by
  simp only [distSection, List.mem_flatMap] at he
  obtain ⟨c, hc, he⟩ := he
  split at he
  · simp only [List.mem_singleton] at he
    exact Or.inl ⟨c, hc, by assumption, he⟩
  · simp only [List.mem_singleton] at he
    exact Or.inr ⟨_, he⟩

lemma mem_corrSection {dfc : Table} {e : Event} (he : e ∈ corrSection dfc) :
    (targetName ∈ dfc.names ∧ (e = .corrEv dfc targetName ∨ e = .heatmapEv dfc)) ∨
    ∃ m, e = .noticeEv m := by
  unfold corrSection at he
  split at he
  · simp only [List.mem_cons, List.mem_singleton, List.not_mem_nil, or_false] at he
    exact Or.inl ⟨by assumption, he⟩
  · simp only [List.mem_singleton] at he
    exact Or.inr ⟨_, he⟩

lemma mem_catSection {dfc : Table} {e : Event} (he : e ∈ catSection dfc) :
    (∃ c, c ∈ categoricalCols ∧ c ∈ dfc.names ∧
      (e = .plotCatEv dfc c targetName ∨ e = .chi2Ev dfc c targetName)) ∨
    ∃ m, e = .noticeEv m := by
  simp only [catSection, List.mem_flatMap] at he
  obtain ⟨c, hc, he⟩ := he
  split at he
  · simp only [List.mem_cons, List.mem_singleton, List.not_mem_nil, or_false] at he
    exact Or.inl ⟨c, hc, by assumption, he⟩
  · simp only [List.mem_singleton] at he
    exact Or.inr ⟨_, he⟩

lemma mem_fairSection {dfc : Table} {e : Event} (he : e ∈ fairSection dfc) :
    (sensitiveName ∈ dfc.names ∧
      (e = .plotCatEv dfc sensitiveName targetName ∨
       e = .chi2Ev dfc sensitiveName targetName)) ∨
    ∃ m, e = .noticeEv m := by
  unfold fairSection at he
  split at he
  · simp only [List.mem_cons, List.mem_singleton, List.not_mem_nil, or_false] at he
    exact Or.inl ⟨by assumption, he⟩
  · simp only [List.mem_singleton] at he
    exact Or.inr ⟨_, he⟩

lemma tableOf_mem_orchestrate {df : Table} {e : Event} {t : Table}
    (he : e ∈ orchestrate df) (ht : e.tableOf = some t) : t = clean_data df := by
  rcases mem_orchestrate he with rfl | rfl | rfl | rfl | rfl | h | h | h | h
  · exact absurd ht (by simp [Event.tableOf])
  · exact absurd ht (by simp [Event.tableOf])
  · exact absurd ht (by simp [Event.tableOf])
  · exact (Option.some_injective _ ht).symm
  · exact (Option.some_injective _ ht).symm
  · rcases mem_distSection h with ⟨c, -, -, rfl⟩ | ⟨m, rfl⟩
    · exact (Option.some_injective _ ht).symm
    · exact absurd ht (by simp [Event.tableOf])
  · rcases mem_corrSection h with ⟨-, rfl | rfl⟩ | ⟨m, rfl⟩
    · exact (Option.some_injective _ ht).symm
    · exact (Option.some_injective _ ht).symm
    · exact absurd ht (by simp [Event.tableOf])
  · rcases mem_catSection h with ⟨c, -, -, rfl | rfl⟩ | ⟨m, rfl⟩
    · exact (Option.some_injective _ ht).symm
    · exact (Option.some_injective _ ht).symm
    · exact absurd ht (by simp [Event.tableOf])
  · rcases mem_fairSection h with ⟨-, rfl | rfl⟩ | ⟨m, rfl⟩
    · exact (Option.some_injective _ ht).symm
    · exact (Option.some_injective _ ht).symm
    · exact absurd ht (by simp [Event.tableOf])

lemma isAnalysis_tableOf {df : Table} {e : Event}
    (he : e ∈ orchestrate df) (ha : e.isAnalysis = true) :
    e.tableOf = some (clean_data df) := by
  rcases mem_orchestrate he with rfl | rfl | rfl | rfl | rfl | h | h | h | h
  · exact absurd ha (by simp [Event.isAnalysis])
  · exact absurd ha (by simp [Event.isAnalysis])
  · exact absurd ha (by simp [Event.isAnalysis])
  · rfl
  · rfl
  · rcases mem_distSection h with ⟨c, -, -, rfl⟩ | ⟨m, rfl⟩
    · rfl
    · exact absurd ha (by simp [Event.isAnalysis])
  · rcases mem_corrSection h with ⟨-, rfl | rfl⟩ | ⟨m, rfl⟩
    · rfl
    · rfl
    · exact absurd ha (by simp [Event.isAnalysis])
  · rcases mem_catSection h with ⟨c, -, -, rfl | rfl⟩ | ⟨m, rfl⟩
    · rfl
    · rfl
    · exact absurd ha (by simp [Event.isAnalysis])
  · rcases mem_fairSection h with ⟨-, rfl | rfl⟩ | ⟨m, rfl⟩
    · rfl
    · rfl
    · exact absurd ha (by simp [Event.isAnalysis])

lemma plotDist_guard {df : Table} {c : String}
    (he : Event.plotDistEv (clean_data df) c ∈ orchestrate df) :
    c ∈ (clean_data df).names := by
  rcases mem_orchestrate he with h | h | h | h | h | h | h | h | h
  · exact absurd h (by simp)
  · exact absurd h (by simp)
  · exact absurd h (by simp)
  · exact absurd h (by simp)
  · exact absurd h (by simp)
  · rcases mem_distSection h with ⟨c', -, hc', heq⟩ | ⟨m, heq⟩ <;> cases heq <;> exact hc'
  · rcases mem_corrSection h with ⟨hc', heq | heq⟩ | ⟨m, heq⟩ <;> cases heq
  · rcases mem_catSection h with ⟨c', -, hc', heq | heq⟩ | ⟨m, heq⟩ <;> cases heq
  · rcases mem_fairSection h with ⟨hc', heq | heq⟩ | ⟨m, heq⟩ <;> cases heq

lemma corrEv_guard {df : Table} {t' : String}
    (he : Event.corrEv (clean_data df) t' ∈ orchestrate df) :
    t' ∈ (clean_data df).names := by
  rcases mem_orchestrate he with h | h | h | h | h | h | h | h | h
  · exact absurd h (by simp)
  · exact absurd h (by simp)
  · exact absurd h (by simp)
  · exact absurd h (by simp)
  · exact absurd h (by simp)
  · rcases mem_distSection h with ⟨c', -, hc', heq⟩ | ⟨m, heq⟩ <;> cases heq
  · rcases mem_corrSection h with ⟨hc', heq | heq⟩ | ⟨m, heq⟩ <;> cases heq <;> exact hc'
  · rcases mem_catSection h with ⟨c', -, hc', heq | heq⟩ | ⟨m, heq⟩ <;> cases heq
  · rcases mem_fairSection h with ⟨hc', heq | heq⟩ | ⟨m, heq⟩ <;> cases heq

lemma plotCat_guard {df : Table} {c t' : String}
    (he : Event.plotCatEv (clean_data df) c t' ∈ orchestrate df) :
    c ∈ (clean_data df).names := by
  rcases mem_orchestrate he with h | h | h | h | h | h | h | h | h
  · exact absurd h (by simp)
  · exact absurd h (by simp)
  · exact absurd h (by simp)
  · exact absurd h (by simp)
  · exact absurd h (by simp)
  · rcases mem_distSection h with ⟨c', -, hc', heq⟩ | ⟨m, heq⟩ <;> cases heq
  · rcases mem_corrSection h with ⟨hc', heq | heq⟩ | ⟨m, heq⟩ <;> cases heq
  · rcases mem_catSection h with ⟨c', -, hc', heq | heq⟩ | ⟨m, heq⟩ <;> cases heq <;>
      exact hc'
  · rcases mem_fairSection h with ⟨hc', heq | heq⟩ | ⟨m, heq⟩ <;> cases heq <;> exact hc'

lemma chi2_guard {df : Table} {c t' : String}
    (he : Event.chi2Ev (clean_data df) c t' ∈ orchestrate df) :
    c ∈ (clean_data df).names := by
  rcases mem_orchestrate he with h | h | h | h | h | h | h | h | h
  · exact absurd h (by simp)
  · exact absurd h (by simp)
  · exact absurd h (by simp)
  · exact absurd h (by simp)
  · exact absurd h (by simp)
  · rcases mem_distSection h with ⟨c', -, hc', heq⟩ | ⟨m, heq⟩ <;> cases heq
  · rcases mem_corrSection h with ⟨hc', heq | heq⟩ | ⟨m, heq⟩ <;> cases heq
  · rcases mem_catSection h with ⟨c', -, hc', heq | heq⟩ | ⟨m, heq⟩ <;> cases heq <;>
      exact hc'
  · rcases mem_fairSection h with ⟨hc', heq | heq⟩ | ⟨m, heq⟩ <;> cases heq <;> exact hc'

lemma notice_of_target_absent {df : Table}
    (h : targetName ∉ (clean_data df).names) :
    Event.noticeEv ("Target column " ++ targetName ++ " not found in dataset.")
      ∈ orchestrate df := by
  have : Event.noticeEv ("Target column " ++ targetName ++ " not found in dataset.")
      ∈ corrSection (clean_data df) := by
    unfold corrSection
    rw [if_neg h]
    exact List.mem_singleton.mpr rfl
  simp only [orchestrate, List.append_assoc, List.cons_append, List.nil_append,
    List.mem_cons, List.mem_append]
  tauto

lemma fair_chi2_mem {df : Table} (h : sensitiveName ∈ (clean_data df).names) :
    Event.chi2Ev (clean_data df) sensitiveName targetName ∈ orchestrate df := by
  have : Event.chi2Ev (clean_data df) sensitiveName targetName
      ∈ fairSection (clean_data df) := by
    unfold fairSection
    rw [if_pos h]
    simp
  simp only [orchestrate, List.append_assoc, List.cons_append, List.nil_append,
    List.mem_cons, List.mem_append]
  tauto

/-! ### Lemmas about the cleaning pipeline -/

lemma imputeCol_not_missing (c : Column) : ∀ v ∈ (imputeCol c).vals, v ≠ Value.missing := by
  intro v hv
  unfold imputeCol at hv
  split at hv <;>
  · simp only [List.mem_map] at hv
    obtain ⟨w, -, rfl⟩ := hv
    split
    · intro h; exact absurd h (by simp)
    · rename_i hw
      cases w <;> simp_all [Value.isMissing]

lemma imputeCol_length (c : Column) : (imputeCol c).vals.length = c.vals.length := by
  unfold imputeCol
  split <;> simp

lemma imputeCol_name (c : Column) : (imputeCol c).name = c.name := by
  unfold imputeCol
  split <;> rfl

lemma impute_noMissing (T : Table) : (impute T).noMissing := by
  intro c hc v hv
  simp only [impute, List.mem_map] at hc
  obtain ⟨c₀, -, rfl⟩ := hc
  exact imputeCol_not_missing c₀ v hv

lemma removeOutliers_noMissing (T : Table) (h : T.noMissing) :
    (removeOutliers T).noMissing := by
  intro c hc v hv
  simp only [removeOutliers, List.mem_map] at hc
  obtain ⟨c₀, hc₀, rfl⟩ := hc
  simp only [List.mem_filterMap] at hv
  obtain ⟨i, -, hi⟩ := hv
  exact h c₀ hc₀ v (List.get?_mem hi)

lemma encode_noMissing (T : Table) (h : T.noMissing) : (encode T).noMissing := by
  intro c hc v hv
  simp only [encode, List.mem_map] at hc
  obtain ⟨c₀, hc₀, rfl⟩ := hc
  split at hv
  · simp only [List.mem_map] at hv
    obtain ⟨w, -, rfl⟩ := hv
    simp
  · exact h c₀ hc₀ v hv

lemma clean_noMissing (T : Table) : (clean_data T).noMissing := by
  unfold clean_data cleanWithWarnings
  exact encode_noMissing _ (removeOutliers_noMissing _ (impute_noMissing _))

lemma nrows_impute (T : Table) : (impute T).nrows = T.nrows := by
  unfold impute Table.nrows
  cases T.cols with
  | nil => rfl
  | cons c rest => simp [imputeCol_length]

lemma nrows_removeOutliers_le (T : Table) : (removeOutliers T).nrows ≤ T.nrows := by
  unfold removeOutliers Table.nrows
  cases h : T.cols with
  | nil => simp
  | cons c rest =>
      simp only [List.map_cons]
      calc ((keptIndices T).filterMap (fun i => c.vals.get? i)).length
          ≤ (keptIndices T).length := List.length_filterMap_le _ _
        _ ≤ (List.range T.nrows).length := List.length_filter_le _ _
        _ = T.nrows := List.length_range _
        _ = c.vals.length := by unfold Table.nrows; rw [h]

lemma nrows_encode (T : Table) : (encode T).nrows = T.nrows := by
  unfold encode Table.nrows
  cases T.cols with
  | nil => rfl
  | cons c rest =>
      simp only [List.map_cons]
      split <;> simp

lemma nrows_dropAllMissing_le (T : Table) (hw : T.wellFormed) :
    (dropAllMissing T).1.nrows ≤ T.nrows := by
  unfold dropAllMissing
  simp only
  cases h : T.cols.filter (fun c => !(!c.vals.isEmpty && c.vals.all Value.isMissing)) with
  | nil => simp [Table.nrows]
  | cons c rest =>
      have hc : c ∈ T.cols := List.mem_of_mem_filter (h ▸ List.mem_cons_self c rest)
      have : c.vals.length = T.nrows := hw c hc
      simp [Table.nrows, h, this]

lemma dropAllMissing_wellFormed (T : Table) (hw : T.wellFormed) :
    (dropAllMissing T).1.wellFormed := by
  intro c hc
  unfold dropAllMissing at hc ⊢
  simp only at hc ⊢
  cases h : T.cols.filter (fun c => !(!c.vals.isEmpty && c.vals.all Value.isMissing)) with
  | nil => rw [h] at hc; exact absurd hc (List.not_mem_nil c)
  | cons c₀ rest =>
      rw [h] at hc
      have hc' : c ∈ T.cols := List.mem_of_mem_filter (h ▸ hc)
      have hc₀ : c₀ ∈ T.cols := List.mem_of_mem_filter (h ▸ List.mem_cons_self c₀ rest)
      simp only [Table.nrows, h]
      rw [hw c hc', hw c₀ hc₀]

lemma encode_noCat (T : Table) : (encode T).noCat := by
  intro c hc v hv
  simp only [encode, List.mem_map] at hc
  obtain ⟨c₀, hc₀, rfl⟩ := hc
  split at hv
  · simp only [List.mem_map] at hv
    obtain ⟨w, -, rfl⟩ := hv
    rfl
  · rename_i hcat
    rw [Bool.not_eq_true] at hcat
    exact Bool.eq_false_iff.mpr fun h =>
      (Bool.eq_false_iff.mp hcat) (List.any_eq_true.mpr ⟨v, hv, h⟩)

lemma clean_noCat (T : Table) : (clean_data T).noCat := by
  unfold clean_data cleanWithWarnings
  exact encode_noCat _

lemma removeOutliers_noCat (T : Table) (h : T.noCat) : (removeOutliers T).noCat := by
  intro c hc v hv
  simp only [removeOutliers, List.mem_map] at hc
  obtain ⟨c₀, hc₀, rfl⟩ := hc
  simp only [List.mem_filterMap] at hv
  obtain ⟨i, -, hi⟩ := hv
  exact h c₀ hc₀ v (List.get?_mem hi)

lemma map_eq_self_of {α : Type} {l : List α} {f : α → α} (h : ∀ x ∈ l, f x = x) :
    l.map f = l := by
  induction l with
  | nil => rfl
  | cons a t ih =>
      simp only [List.map_cons, h a (List.mem_cons_self a t)]
      rw [ih fun x hx => h x (List.mem_cons_of_mem a hx)]

lemma dropAllMissing_of_noMissing (T : Table) (h : T.noMissing) :
    dropAllMissing T = (T, []) := by
  have hkeep : ∀ c ∈ T.cols,
      (!(!c.vals.isEmpty && c.vals.all Value.isMissing)) = true := by
    intro c hc
    cases hv : c.vals with
    | nil => simp [hv]
    | cons v rest =>
        have : v.isMissing = false := by
          have := h c hc v (by rw [hv]; exact List.mem_cons_self v rest)
          cases v <;> simp_all [Value.isMissing]
        simp [hv, List.all_cons, this]
  have h1 : T.cols.filter (fun c => !(!c.vals.isEmpty && c.vals.all Value.isMissing)) =
      T.cols := List.filter_eq_self.mpr hkeep
  have h2 : T.cols.filter (fun c => !c.vals.isEmpty && c.vals.all Value.isMissing) = [] := by
    refine List.filter_eq_nil_iff.mpr fun c hc => ?_
    have := hkeep c hc
    rw [Bool.not_eq_true'] at this
    simp [this]
  unfold dropAllMissing
  rw [h1, h2]
  rfl

lemma imputeCol_of_noMissing (c : Column) (h : ∀ v ∈ c.vals, v ≠ Value.missing) :
    imputeCol c = c := by
  obtain ⟨name, vals⟩ := c
  have hm : ∀ w : Value, vals.map (fun v => if v.isMissing then w else v) = vals :=
    fun w => map_eq_self_of fun v hv => by simp [not_isMissing_of_ne (h v hv)]
  unfold imputeCol
  split <;> simp [hm]

lemma impute_of_noMissing (T : Table) (h : T.noMissing) : impute T = T := by
  obtain ⟨cols⟩ := T
  unfold impute
  congr 1
  exact map_eq_self_of fun c hc => imputeCol_of_noMissing c (h c hc)

lemma encode_of_noCat (T : Table) (h : T.noCat) : encode T = T := by
  obtain ⟨cols⟩ := T
  unfold encode
  congr 1
  refine map_eq_self_of fun c hc => ?_
  have : (c.vals.any Value.isCat) = false := by
    rw [Bool.eq_false_iff]
    intro hany
    obtain ⟨v, hv, hcat⟩ := List.any_eq_true.mp hany
    rw [h c hc v hv] at hcat
    exact Bool.false_ne_true hcat
  simp [this]

lemma clean_clean_eq (T : Table) :
    clean_data (clean_data T) = removeOutliers (clean_data T) := by
  have h1 : clean_data (clean_data T)
      = encode (removeOutliers (impute (dropAllMissing (clean_data T)).1)) := rfl
  rw [h1, dropAllMissing_of_noMissing _ (clean_noMissing T)]
  show encode (removeOutliers (impute (clean_data T))) = _
  rw [impute_of_noMissing _ (clean_noMissing T)]
  exact encode_of_noCat _ (removeOutliers_noCat _ (clean_noCat T))

lemma allMissing_warning (T : Table) (c : Column) (hc : c ∈ T.cols)
    (hne : c.vals ≠ []) (hall : ∀ v ∈ c.vals, v = Value.missing) :
    ("Warning: column " ++ c.name ++ " is entirely missing and was dropped")
      ∈ (cleanWithWarnings T).2 := by
  have hpred : (!c.vals.isEmpty && c.vals.all Value.isMissing) = true := by
    have h1 : c.vals.isEmpty = false := by
      cases hv : c.vals with
      | nil => exact absurd hv hne
      | cons a t => rfl
    have h2 : c.vals.all Value.isMissing = true :=
      List.all_eq_true.mpr fun v hv => by rw [hall v hv]; rfl
    simp [h1, h2]
  show _ ∈ (dropAllMissing T).2
  unfold dropAllMissing
  exact List.mem_map.mpr ⟨c, List.mem_filter.mpr ⟨hc, hpred⟩, rfl⟩

lemma allMissing_dropped (T : Table) (c : Column)
    (hne : c.vals ≠ []) (hall : ∀ v ∈ c.vals, v = Value.missing) :
    c ∉ (clean_data T).cols := by
  intro hmem
  cases hv : c.vals with
  | nil => exact hne hv
  | cons a t =>
      have ha : a = Value.missing := hall a (by rw [hv]; exact List.mem_cons_self a t)
      exact clean_noMissing T c hmem a (by rw [hv]; exact List.mem_cons_self a t) ha

lemma clean_empty : clean_data ⟨[]⟩ = ⟨[]⟩ := rfl

lemma nrows_clean_le (T : Table) (hw : T.wellFormed) :
    (clean_data T).nrows ≤ T.nrows := by
  unfold clean_data cleanWithWarnings
  simp only
  calc (encode (removeOutliers (impute (dropAllMissing T).1))).nrows
      = (removeOutliers (impute (dropAllMissing T).1)).nrows := nrows_encode _
    _ ≤ (impute (dropAllMissing T).1).nrows := nrows_removeOutliers_le _
    _ = (dropAllMissing T).1.nrows := nrows_impute _
    _ ≤ T.nrows := nrows_dropAllMissing_le T hw

/-! ## Theorems settling the claims

Concrete instances are checked by kernel evaluation; the rational arithmetic
operations are made semireducible locally so the evaluation can proceed. -/

attribute [local semireducible] Rat.mul Rat.add Rat.sub Rat.inv

/-- C1: for every input table, `clean_data` leaves no missing value in any
column, and for well-formed tables the row count never increases (outlier
removal only deletes rows). -/
theorem clean_data_spec (T : Table) (hw : T.wellFormed) :
    (∀ c ∈ (clean_data T).cols, ∀ v ∈ c.vals, v ≠ Value.missing) ∧
    (clean_data T).nrows ≤ T.nrows :=
  ⟨clean_noMissing T, nrows_clean_le T hw⟩

/-- C1 witness: the spec's worked example table is well-formed, cleans to a
table without missing values and does not grow. -/
theorem clean_data_spec_witness :
    (∀ c ∈ (clean_data sampleTable).cols, ∀ v ∈ c.vals, v ≠ Value.missing) ∧
    (clean_data sampleTable).nrows ≤ sampleTable.nrows :=
  clean_data_spec sampleTable (by decide)

/-- C2 counterexample: on a table whose cleaned form has a `grade` column but
no `default` column, the bivariate cell still invokes `chi_square_test` with
the absent target column — the orchestrator does not check membership of
every column it passes. -/
theorem target_membership_unchecked :
    Event.chi2Ev (clean_data gradeOnlyTable) "grade" "default"
      ∈ orchestrate gradeOnlyTable ∧
    "default" ∉ (clean_data gradeOnlyTable).names := by
  constructor
  · decide
  · decide

/-- C2 amended: the orchestrator checks membership of each step's guard
column — the distribution column, the correlation target, the categorical
column and the sensitive column — and skips with a printed notice when the
guard column is absent; but the bivariate and fairness cells do not check
the target column they also pass. -/
theorem orchestrator_guard_columns (df : Table) :
    (∀ c, Event.plotDistEv (clean_data df) c ∈ orchestrate df →
      c ∈ (clean_data df).names) ∧
    (∀ t', Event.corrEv (clean_data df) t' ∈ orchestrate df →
      t' ∈ (clean_data df).names) ∧
    (∀ c t', Event.plotCatEv (clean_data df) c t' ∈ orchestrate df →
      c ∈ (clean_data df).names) ∧
    (∀ c t', Event.chi2Ev (clean_data df) c t' ∈ orchestrate df →
      c ∈ (clean_data df).names) ∧
    (targetName ∉ (clean_data df).names →
      Event.noticeEv ("Target column " ++ targetName ++ " not found in dataset.")
        ∈ orchestrate df) :=
  ⟨fun _ => plotDist_guard, fun _ => corrEv_guard, fun _ _ => plotCat_guard,
   fun _ _ => chi2_guard, notice_of_target_absent⟩

/-- C2 witness: on the grade-only table the missing target produces the
printed notice. -/
theorem orchestrator_guard_columns_witness :
    Event.noticeEv ("Target column " ++ targetName ++ " not found in dataset.")
      ∈ orchestrate gradeOnlyTable :=
  (orchestrator_guard_columns gradeOnlyTable).2.2.2.2 (by decide)

/-- C3: `correlation_analysis` fails with a descriptive error when the
target is absent; otherwise it returns a mapping covering exactly the
numeric columns other than the target, every coefficient lies in `[-1, 1]`,
and the mapping is sorted by absolute coefficient descending with ties
broken by original column order. -/
theorem correlation_analysis_contract (T : Table) (target : String)
    (hw : T.wellFormed) :
    (target ∉ T.names →
      correlation_analysis T target =
        .error ("Target column " ++ target ++ " not found in table")) ∧
    (target ∈ T.names →
      ∃ res, correlation_analysis T target = .ok res ∧
        (∀ c ∈ T.cols, c.isNumeric = true → c.name ≠ target →
          c.name ∈ res.map CorrEntry.name) ∧
        (∀ e ∈ res, ∃ c ∈ T.cols,
          c.isNumeric = true ∧ c.name ≠ target ∧ c.name = e.name) ∧
        (∀ e ∈ res, -1 ≤ coefOf e ∧ coefOf e ≤ 1) ∧
        List.Sorted coefRel res) := by
  constructor
  · intro h
    have hnone : T.findCol target = none := (findCol_eq_none_iff T target).mpr h
    unfold correlation_analysis
    rw [hnone]
  · intro h
    obtain ⟨tc, htc⟩ : ∃ tc, T.findCol target = some tc := by
      rcases hfc : T.findCol target with _ | tc
      · exact absurd ((findCol_eq_none_iff T target).mp hfc) (not_not_intro h)
      · exact ⟨tc, rfl⟩
    refine ⟨List.insertionSort corrRel (corrEntries T target), ?_, ?_, ?_, ?_, ?_⟩
    · unfold correlation_analysis
      rw [htc]
    · intro c hc hnum hne
      obtain ⟨e, he, hename⟩ :=
        List.mem_map.mp (name_mem_corrEntries T target htc hc hnum hne)
      exact List.mem_map.mpr
        ⟨e, (List.perm_insertionSort corrRel _).mem_iff.mpr he, hename⟩
    · intro e he
      exact corrEntries_name_sound T target e
        ((List.perm_insertionSort corrRel _).mem_iff.mp he)
    · intro e he
      exact abs_le.mp (abs_coefOf_le_one e (corrEntries_valid T target e
        ((List.perm_insertionSort corrRel _).mem_iff.mp he)))
    · exact sorted_insertionSort_coefRel T target hw htc

/-- C3 witness: on a concrete well-formed table with the target present the
analysis succeeds. -/
theorem correlation_analysis_contract_witness :
    isErr (correlation_analysis corrTable "default") = false := by
  obtain ⟨res, hres, -⟩ :=
    (correlation_analysis_contract corrTable "default" (by decide)).2 (by decide)
  rw [hres]
  rfl

/-- C4: `chi_square_test` fails whenever either column has fewer than two
distinct categories, and such a failure is local to the one call: the
fairness cell's test still runs afterwards whenever its own guard passes. -/
theorem chi_square_degenerate_fails_locally :
    (∀ (T : Table) (cn tn : String) (c t : Column),
      T.findCol cn = some c → T.findCol tn = some t →
      (distinctCats c).length < 2 ∨ (distinctCats t).length < 2 →
      isErr (chi_square_test T cn tn) = true) ∧
    (∀ df : Table,
      isErr (chi_square_test (clean_data df) "grade" targetName) = true →
      sensitiveName ∈ (clean_data df).names →
      Event.chi2Ev (clean_data df) sensitiveName targetName ∈ orchestrate df) := by
  constructor
  · intro T cn tn c t hc ht hdeg
    rw [chi_square_test_degenerate hc ht hdeg]
    rfl
  · intro df _ h
    exact fair_chi2_mem h

/-- C4 witness: a table whose `grade` column holds a single category makes
the grade test fail while the age test still appears in the run. -/
theorem chi_square_degenerate_fails_locally_witness :
    isErr (chi_square_test degenerateTable "grade" "default") = true ∧
    Event.chi2Ev (clean_data degenerateTable) sensitiveName targetName
      ∈ orchestrate degenerateTable :=
  ⟨chi_square_degenerate_fails_locally.1 degenerateTable "grade" "default" _ _
      rfl rfl (by decide),
   chi_square_degenerate_fails_locally.2 degenerateTable (by decide) (by decide)⟩

/-- C5 counterexample: on a single numeric column the IQR outlier pass is
not idempotent — the first clean removes the extreme value, which lowers the
upper quartile, and the second clean removes a further row, so
`clean(clean T) ≠ clean T`. -/
theorem clean_not_idempotent :
    clean_data (clean_data nonIdemTable) ≠ clean_data nonIdemTable := by
  decide

/-- C5 amended: re-cleaning performs no additional imputation,
column-dropping or encoding — on an already-clean table those passes are the
identity, so a second clean reduces exactly to the outlier-removal pass;
that pass, however, may still remove rows, so full idempotence fails. -/
theorem clean_clean_eq_removeOutliers (T : Table) :
    clean_data (clean_data T) = removeOutliers (clean_data T) :=
  clean_clean_eq T

/-- C6: a column that is entirely missing is dropped with a warning signal
rather than a fatal error, and an empty input table yields an empty output
table. -/
theorem clean_edge_cases :
    (∀ (T : Table), ∀ c ∈ T.cols, c.vals ≠ [] →
      (∀ v ∈ c.vals, v = Value.missing) →
      ("Warning: column " ++ c.name ++ " is entirely missing and was dropped")
        ∈ (cleanWithWarnings T).2 ∧ c ∉ (clean_data T).cols) ∧
    clean_data ⟨[]⟩ = ⟨[]⟩ :=
  ⟨fun T c hc hne hall =>
    ⟨allMissing_warning T c hc hne hall, allMissing_dropped T c hne hall⟩,
   clean_empty⟩

/-- C6 witness: the all-missing column `m` is dropped with its warning. -/
theorem clean_edge_cases_witness :
    ("Warning: column " ++ "m" ++ " is entirely missing and was dropped")
      ∈ (cleanWithWarnings allMissingTable).2 ∧
    (⟨"m", [Value.missing, Value.missing]⟩ : Column)
      ∉ (clean_data allMissingTable).cols :=
  clean_edge_cases.1 allMissingTable ⟨"m", [Value.missing, Value.missing]⟩
    (by decide) (by decide) (by decide)

/-- C7: each analysis function returns a derived result and leaves the table
it receives unchanged, and along any run every table-carrying event after
the cleaning stage holds one and the same table. -/
theorem analyses_no_mutation :
    (∀ T : Table, (summarize_data_st T).2 = T) ∧
    (∀ (T : Table) (target : String), (correlation_analysis_st T target).2 = T) ∧
    (∀ (T : Table) (cn tn : String), (chi_square_test_st T cn tn).2 = T) ∧
    (∀ (df : Table) (e₁ e₂ : Event) (t₁ t₂ : Table),
      e₁ ∈ orchestrate df → e₂ ∈ orchestrate df →
      e₁.tableOf = some t₁ → e₂.tableOf = some t₂ → t₁ = t₂) := by
  refine ⟨fun _ => rfl, fun _ _ => rfl, fun _ _ _ => rfl, ?_⟩
  intro df e₁ e₂ t₁ t₂ h₁ h₂ ht₁ ht₂
  rw [tableOf_mem_orchestrate h₁ ht₁, tableOf_mem_orchestrate h₂ ht₂]

/-- C7 witness: in the run on the tiny table, the save event and the
summarize event carry the same table (which here equals the input, already
clean). -/
theorem analyses_no_mutation_witness :
    clean_data tinyTable = tinyTable :=
  analyses_no_mutation.2.2.2 tinyTable
    (.saveEv (clean_data tinyTable) processedPath) (.summarizeEv tinyTable) _ _
    (by decide) (by decide) rfl rfl

/-- C8: `load_data` fails with a `FileNotFoundError`-kind error exactly when
the path is absent from the file system; otherwise it returns the raw parse
of the stored file, whose column names come from the header and whose
columns all have one value per data row. -/
theorem load_data_contract (fs : List (String × List String)) (path : String) :
    (fs.lookup path = none →
      load_data fs path = .error ("FileNotFoundError: no such file: " ++ path)) ∧
    (∀ lines, fs.lookup path = some lines →
      load_data fs path = .ok (parseTable lines)) ∧
    (∀ header rows, fs.lookup path = some (header :: rows) →
      (parseTable (header :: rows)).names = header.splitOn "," ∧
      ∀ c ∈ (parseTable (header :: rows)).cols, c.vals.length = rows.length) := by
  refine ⟨?_, ?_, ?_⟩
  · intro h
    unfold load_data
    rw [h]
  · intro lines h
    unfold load_data
    rw [h]
  · intro header rows h
    exact ⟨parseTable_names header rows, parseTable_col_length header rows⟩

/-- C8 witness: a missing path errors, a present file parses raw with the
header's names. -/
theorem load_data_contract_witness :
    load_data sampleFS "nope.csv" =
      .error ("FileNotFoundError: no such file: " ++ "nope.csv") ∧
    load_data sampleFS "data.csv" = .ok (parseTable ["a,b", "1,", "2,x"]) ∧
    (parseTable ["a,b", "1,", "2,x"]).names = "a,b".splitOn "," :=
  ⟨(load_data_contract sampleFS "nope.csv").1 rfl,
   (load_data_contract sampleFS "data.csv").2.1 _ rfl,
   ((load_data_contract sampleFS "data.csv").2.2 "a,b" ["1,", "2,x"] rfl).1⟩

/-- C9: in every run, the cleaned table is saved immediately after cleaning
— the trace starts load, preview, clean, save — and before any summarize,
correlation, chi-square or plot event, so the cleaned CSV is produced
regardless of what later steps do. -/
theorem save_before_analysis (df : Table) :
    (orchestrate df).take 4 =
      [.loadEv df, .previewEv df, .cleanEv,
       .saveEv (clean_data df) processedPath] ∧
    (∀ e ∈ (orchestrate df).take 4, e.isAnalysis = false) ∧
    Event.saveEv (clean_data df) processedPath ∈ orchestrate df := by
  refine ⟨rfl, ?_, ?_⟩
  · intro e he
    have h4 : (orchestrate df).take 4 =
        [.loadEv df, .previewEv df, .cleanEv,
         .saveEv (clean_data df) processedPath] := rfl
    rw [h4] at he
    rcases List.mem_cons.mp he with rfl | he
    · rfl
    rcases List.mem_cons.mp he with rfl | he
    · rfl
    rcases List.mem_cons.mp he with rfl | he
    · rfl
    rcases List.mem_cons.mp he with rfl | he
    · rfl
    · exact absurd he (List.not_mem_nil e)
  · simp [orchestrate]

/-- C9 witness: in the run on the tiny table the clean marker sits in the
pre-analysis prefix and is not an analysis event. -/
theorem save_before_analysis_witness :
    Event.cleanEv ∈ (orchestrate tinyTable).take 4 ∧
    Event.isAnalysis Event.cleanEv = false :=
  ⟨by decide, (save_before_analysis tinyTable).2.1 Event.cleanEv (by decide)⟩

/-- C10: every analysis or plot call of the run receives exactly the cleaned
table, so the missing-value counts the summarize cell prints are the
post-cleaning counts — all zero. -/
theorem orchestrator_passes_only_clean (df : Table) :
    (∀ e ∈ orchestrate df, e.isAnalysis = true →
      e.tableOf = some (clean_data df)) ∧
    (∀ p ∈ (summarize_data (clean_data df)).missing, p.2 = 0) :=
  ⟨fun _ he ha => isAnalysis_tableOf he ha,
   summarize_missing_zero _ (clean_noMissing df)⟩

/-- C10 witness: the summarize event of the tiny run carries the cleaned
table. -/
theorem orchestrator_passes_only_clean_witness :
    Event.tableOf (.summarizeEv (clean_data tinyTable))
      = some (clean_data tinyTable) :=
  (orchestrator_passes_only_clean tinyTable).1 _ (by decide) (by decide)

end CreditEDA
